import Mathlib

/-!
# Verification of the character-RNN batching and sampling core

Shallow embedding of the pure array-manipulation core of the
`Anna KaRNNa` notebooks: `split_data`, `get_batch`, `pick_top_n` and
`sample`.  Integer-coded characters are `ℕ`, probabilities are `ℚ`
(exact arithmetic stands in for float arithmetic; every claim proved
here is about index/shape/support structure, which floats preserve).
The opaque TensorFlow model consulted by `sample` is abstracted, as the
notebooks treat it, into a step function `σ → ℕ → List ℚ × σ` returning
a prediction vector and a successor hidden state; the random draw in
`np.random.choice(vocab_size, 1, p=p)` is modelled by inverse-CDF
search over `p` at a seed `r ∈ [0,1)`.
-/

namespace AnnaKaRNNa

/-! ## `pick_top_n`

Source (both notebooks, identical):
```
def pick_top_n(preds, vocab_size, top_n=5):
    p = np.squeeze(preds)
    p[np.argsort(p)[:-top_n]] = 0
    p = p / np.sum(p)
    c = np.random.choice(vocab_size, 1, p=p)[0]
    return c
```
`np.squeeze` on an already-1-D(-compatible) input is a *view* of the
caller's buffer, so the fancy-indexing assignment on line 2 writes
through into the caller's array; the division on line 3 rebinds `p` to
a fresh array and does not.  We therefore model `pick_top_n` as
returning both the chosen index and the post-call content of the
caller's buffer.  `np.argsort` sorts indices by value ascending; its
default kind is unstable, so tie order is unspecified — we fix a stable
insertion sort, a faithful refinement for every property proved below
(none depends on tie order). -/

/-- Comparison of positions of `p` by their values, ascending. -/
def argRel (p : List ℚ) (i j : ℕ) : Prop :=
  p.getD i 0 ≤ p.getD j 0

instance (p : List ℚ) : DecidableRel (argRel p) :=
  fun _ _ => inferInstanceAs (Decidable (_ ≤ _))

instance (p : List ℚ) : IsTotal ℕ (argRel p) :=
  ⟨fun _ _ => le_total _ _⟩

instance (p : List ℚ) : IsTrans ℕ (argRel p) :=
  ⟨fun _ _ _ h h' => le_trans h h'⟩

/-- Model of `np.argsort(p)`: the indices `0..len(p)-1` sorted by value ascending. -/
def argsort (p : List ℚ) : List ℕ :=
  List.insertionSort (argRel p) (List.range p.length)

/-- Python slice `l[:j]` where `j` may be negative (`l[:-k]` drops the
last `k` elements, empty when `k ≥ len l`; `l[:0]` — in particular
`l[:-top_n]` for `top_n = 0` — is empty). -/
def pySliceUpto {α : Type} (l : List α) (j : Int) : List α :=
  if j < 0 then l.take (l.length - (-j).toNat) else l.take j.toNat

/-- Write `0` at every position of `p` (positions counted from `k`)
that occurs in `S`: the effect of `p[S] = 0`. -/
def zeroFrom (S : List ℕ) : List ℚ → ℕ → List ℚ
  | [], _ => []
  | v :: rest, k => (if k ∈ S then 0 else v) :: zeroFrom S rest (k + 1)

/-- The caller's buffer after `p[np.argsort(p)[:-top_n]] = 0`. -/
def zeroedPreds (preds : List ℚ) (top_n : Int) : List ℚ :=
  zeroFrom (pySliceUpto (argsort preds) (-top_n)) preds 0

/-- Model of `p / np.sum(p)`. -/
def renormalize (p : List ℚ) : List ℚ :=
  p.map (fun v => v / p.sum)

/-- Inverse-CDF draw: the index numpy's categorical draw returns at
uniform seed `r` — the least `i` whose prefix sum exceeds `r`. -/
def cdfChoice : List ℚ → ℚ → ℕ
  | [], _ => 0
  | a :: rest, r => if r < a then 0 else cdfChoice rest (r - a) + 1

/-- Model of `pick_top_n`: returns the drawn index together with the post-call
content of the caller's `preds` buffer (zeroed but *not* renormalized,
since the renormalization rebinds the local `p`).  `np.random.choice`
requires `vocab_size = len(p)`, so the draw depends only on `p`. -/
def pick_top_n (preds : List ℚ) (top_n : Int) (r : ℚ) : ℕ × List ℚ :=
  let pz := zeroedPreds preds top_n
  let p := renormalize pz
  (cdfChoice p r, pz)

/-- Number of non-zero entries of a distribution. -/
def numNonzero (l : List ℚ) : ℕ :=
  l.countP (fun v => decide (v ≠ 0))

/-- The spec's concrete scenario distribution `[0.1, 0.05, 0.6, 0.05, 0.2]`. -/
def exDist : List ℚ := [1/10, 1/20, 3/5, 1/20, 1/5]

lemma exDist_argsort : argsort exDist = [1, 3, 0, 4, 2] := by
  norm_num [exDist, argsort, argRel, List.range_succ]

lemma exDist_zeroed : zeroedPreds exDist 2 = [0, 0, 3/5, 0, 1/5] := by
  rw [zeroedPreds, exDist_argsort]
  have hS : pySliceUpto [1, 3, 0, 4, 2] (-(2:Int)) = [1, 3, 0] := rfl
  rw [hS]
  norm_num [exDist, zeroFrom]

lemma exDist_renorm : renormalize (zeroedPreds exDist 2) = [0, 0, 3/4, 0, 1/4] := by
  rw [exDist_zeroed]; norm_num [renormalize]

lemma exDist_zeroed_zero : zeroedPreds exDist 0 = exDist := by
  rw [zeroedPreds, exDist_argsort]
  have hS : pySliceUpto [1, 3, 0, 4, 2] (-(0:Int)) = [] := rfl
  rw [hS]
  norm_num [exDist, zeroFrom]

lemma exDist_zeroed_neg : zeroedPreds exDist (-2) = [1/10, 0, 3/5, 0, 1/5] := by
  rw [zeroedPreds, exDist_argsort]
  have hS : pySliceUpto [1, 3, 0, 4, 2] (-(-2:Int)) = [1, 3] := rfl
  rw [hS]
  norm_num [exDist, zeroFrom]

/-! ### Structural lemmas about `argsort`, `zeroFrom`, `cdfChoice` -/

lemma argsort_perm (p : List ℚ) : List.Perm (argsort p) (List.range p.length) :=
  List.perm_insertionSort _ _

lemma argsort_length (p : List ℚ) : (argsort p).length = p.length := by
  rw [(argsort_perm p).length_eq, List.length_range]

lemma argsort_nodup (p : List ℚ) : (argsort p).Nodup :=
  ((argsort_perm p).nodup_iff).mpr (List.nodup_range _)

lemma argsort_mem {p : List ℚ} {i : ℕ} : i ∈ argsort p ↔ i < p.length := by
  rw [(argsort_perm p).mem_iff, List.mem_range]

lemma argsort_sorted (p : List ℚ) : (argsort p).Sorted (argRel p) :=
  List.sorted_insertionSort _ _

lemma zeroFrom_nil (p : List ℚ) (k : ℕ) : zeroFrom [] p k = p := by
  induction p generalizing k with
  | nil => rfl
  | cons v rest ih => simp [zeroFrom, ih]

lemma zeroFrom_length (S : List ℕ) (p : List ℚ) (k : ℕ) :
    (zeroFrom S p k).length = p.length := by
  induction p generalizing k with
  | nil => rfl
  | cons v rest ih => simp [zeroFrom, ih]

lemma zeroFrom_getD (S : List ℕ) (p : List ℚ) (k i : ℕ) :
    (zeroFrom S p k).getD i 0 = if (k + i) ∈ S then 0 else p.getD i 0 := by
  induction p generalizing k i with
  | nil => simp [zeroFrom]
  | cons v rest ih =>
    cases i with
    | zero => simp [zeroFrom]
    | succ m =>
      have h := ih (k + 1) m
      simpa [zeroFrom, Nat.add_assoc, Nat.add_comm 1 m] using h

lemma zeroFrom_mem (S : List ℕ) (p : List ℚ) (k : ℕ) :
    ∀ v ∈ zeroFrom S p k, v = 0 ∨ v ∈ p := by
  induction p generalizing k with
  | nil => simp [zeroFrom]
  | cons w rest ih =>
    intro v hv
    rw [zeroFrom, List.mem_cons] at hv
    rcases hv with hv | hv
    · by_cases hk : k ∈ S
      · simp [hk] at hv; simp [hv]
      · simp [hk] at hv; simp [hv]
    · rcases ih (k + 1) v hv with h | h
      · exact Or.inl h
      · exact Or.inr (List.mem_cons_of_mem _ h)

/-- Splitting a `countP` of `k ≤ ·` at the single value `k`. -/
lemma countP_le_split (S : List ℕ) (k : ℕ) :
    S.countP (fun i => decide (k ≤ i)) =
      S.countP (fun i => decide (k + 1 ≤ i)) + S.count k := by
  induction S with
  | nil => simp
  | cons a T ih =>
    simp only [List.countP_cons, List.count_cons, ih]
    by_cases h1 : k ≤ a <;> by_cases h2 : k + 1 ≤ a <;> by_cases h3 : a = k <;>
      simp [h1, h2, h3] <;> omega

/-- A duplicate-free list of naturals bounded by `j + m` has at most `m`
members that are `≥ j`. -/
lemma countP_le_card_range (S : List ℕ) (hS : S.Nodup) (j m : ℕ)
    (h : ∀ i ∈ S, i < j + m) :
    S.countP (fun i => decide (j ≤ i)) ≤ m := by
  rw [List.countP_eq_length_filter]
  have hnd : (S.filter (fun i => decide (j ≤ i))).Nodup := hS.filter _
  have hsub : (S.filter (fun i => decide (j ≤ i))).toFinset ⊆ Finset.Ico j (j + m) := by
    intro i hi
    rw [List.mem_toFinset, List.mem_filter] at hi
    rw [Finset.mem_Ico]
    exact ⟨by simpa using hi.2, h i hi.1⟩
  have hcard := Finset.card_le_card hsub
  rw [List.toFinset_card_of_nodup hnd, Nat.card_Ico] at hcard
  omega

/-- Counting the non-zero entries left by `zeroFrom`: positions in `S`
are zeroed, every other entry keeps its (non-zero) value. -/
lemma numNonzero_zeroFrom (S : List ℕ) (hS : S.Nodup) :
    ∀ (p : List ℚ) (k : ℕ), (∀ v ∈ p, v ≠ 0) → (∀ i ∈ S, i < k + p.length) →
      numNonzero (zeroFrom S p k) = p.length - S.countP (fun i => decide (k ≤ i)) := by
  intro p
  induction p with
  | nil =>
    intro k _ hlt
    have hz : S.countP (fun i => decide (k ≤ i)) = 0 := by
      rw [List.countP_eq_zero]
      intro i hi
      have := hlt i hi
      simp only [List.length_nil, Nat.add_zero] at this
      simp only [decide_eq_true_eq]
      omega
    simp [zeroFrom, numNonzero, hz]
  | cons v rest ih =>
    intro k hpos hlt
    have hlt' : ∀ i ∈ S, i < (k + 1) + rest.length := by
      intro i hi
      have := hlt i hi
      simp only [List.length_cons] at this
      omega
    have hrec := ih (k + 1) (fun w hw => hpos w (List.mem_cons_of_mem _ hw)) hlt'
    have hsplit := countP_le_split S k
    have hbound := countP_le_card_range S hS (k + 1) rest.length hlt'
    by_cases hk : k ∈ S
    · have hcount : S.count k = 1 := List.count_eq_one_of_mem hS hk
      simp only [zeroFrom, numNonzero, List.countP_cons, if_pos hk] at hrec ⊢
      rw [hrec]
      simp only [ne_eq, not_true_eq_false, decide_False, List.length_cons,
        Bool.false_eq_true, if_false]
      omega
    · have hcount : S.count k = 0 := List.count_eq_zero.mpr hk
      have hv : v ≠ 0 := hpos v (List.mem_cons_self _ _)
      simp only [zeroFrom, numNonzero, List.countP_cons, if_neg hk] at hrec ⊢
      rw [hrec]
      simp only [ne_eq, hv, not_false_eq_true, decide_True, List.length_cons, if_true]
      omega

/-- Inverse-CDF search with a seed inside the total mass lands on an
index carrying strictly positive mass. -/
lemma cdfChoice_spec (l : List ℚ) (r : ℚ) (hr0 : 0 ≤ r) (hrs : r < l.sum) :
    cdfChoice l r < l.length ∧ 0 < l.getD (cdfChoice l r) 0 := by
  induction l generalizing r with
  | nil => simp at hrs; exact absurd (lt_of_le_of_lt hr0 hrs) (lt_irrefl 0)
  | cons a rest ih =>
    by_cases h : r < a
    · refine ⟨by simp [cdfChoice, h], ?_⟩
      simp only [cdfChoice, if_pos h]
      exact lt_of_le_of_lt hr0 h
    · push_neg at h
      have hr0' : 0 ≤ r - a := by linarith
      have hrs' : r - a < rest.sum := by
        rw [List.sum_cons] at hrs; linarith
      obtain ⟨h1, h2⟩ := ih (r - a) hr0' hrs'
      have hna : ¬ r < a := not_lt.mpr h
      refine ⟨?_, ?_⟩
      · simp only [cdfChoice, if_neg hna, List.length_cons]
        omega
      · simpa [cdfChoice, if_neg hna] using h2

lemma renormalize_length (p : List ℚ) : (renormalize p).length = p.length := by
  simp [renormalize]

lemma sum_map_div (l : List ℚ) (c : ℚ) : (l.map (fun v => v / c)).sum = l.sum / c := by
  induction l with
  | nil => simp
  | cons a rest ih => simp [List.sum_cons, add_div, ih]

lemma renormalize_sum (p : List ℚ) (hp : p.sum ≠ 0) : (renormalize p).sum = 1 := by
  rw [renormalize, sum_map_div, div_self hp]

lemma renormalize_getD (p : List ℚ) (i : ℕ) (h : i < p.length) :
    (renormalize p).getD i 0 = p.getD i 0 / p.sum := by
  rw [renormalize, List.getD_eq_getElem?_getD, List.getElem?_map,
    List.getD_eq_getElem?_getD]
  cases h' : p[i]? with
  | none => exact absurd (List.getElem?_eq_none_iff.mp h') (by omega)
  | some v => simp [h']

/-- For `top_n ≥ 1` the zeroed index set is the first
`len - top_n` entries of the ascending `argsort`. -/
lemma pySlice_of_pos (p : List ℚ) (t : Int) (ht : 1 ≤ t) :
    pySliceUpto (argsort p) (-t) = (argsort p).take (p.length - t.toNat) := by
  rw [pySliceUpto, if_pos (by omega : -t < 0), argsort_length]
  congr 1
  omega

lemma dropped_nodup (p : List ℚ) (t : Int) :
    (pySliceUpto (argsort p) (-t)).Nodup := by
  rw [pySliceUpto]
  split <;> exact (argsort_nodup p).sublist (List.take_sublist _ _)

lemma dropped_mem {p : List ℚ} {t : Int} {i : ℕ}
    (h : i ∈ pySliceUpto (argsort p) (-t)) : i < p.length := by
  rw [pySliceUpto] at h
  split at h <;> exact argsort_mem.mp (List.mem_of_mem_take h)

lemma countP_zero_le (S : List ℕ) : S.countP (fun i => decide (0 ≤ i)) = S.length :=
  List.countP_eq_length.mpr (fun a _ => by simp)

/-- How many entries survive the zeroing, for an all-nonzero input. -/
lemma numNonzero_zeroedPreds (p : List ℚ) (t : Int) (ht : 1 ≤ t)
    (hpos : ∀ v ∈ p, v ≠ 0) :
    numNonzero (zeroedPreds p t) = min t.toNat p.length := by
  rw [zeroedPreds, pySlice_of_pos p t ht]
  have hnd : ((argsort p).take (p.length - t.toNat)).Nodup :=
    (argsort_nodup p).sublist (List.take_sublist _ _)
  have hlt : ∀ i ∈ (argsort p).take (p.length - t.toNat), i < 0 + p.length := by
    intro i hi
    simpa using argsort_mem.mp (List.mem_of_mem_take hi)
  rw [numNonzero_zeroFrom _ hnd p 0 hpos hlt, countP_zero_le,
    List.length_take, argsort_length]
  omega

lemma zeroedPreds_length (p : List ℚ) (t : Int) :
    (zeroedPreds p t).length = p.length :=
  zeroFrom_length _ _ _

lemma zeroedPreds_nonneg (p : List ℚ) (t : Int) (hpos : ∀ v ∈ p, 0 ≤ v) :
    ∀ v ∈ zeroedPreds p t, 0 ≤ v := by
  intro v hv
  rcases zeroFrom_mem _ _ _ v hv with h | h
  · exact h.ge
  · exact hpos v h

lemma zeroedPreds_sum_pos (p : List ℚ) (t : Int) (ht : 1 ≤ t) (hp : p ≠ [])
    (hpos : ∀ v ∈ p, 0 < v) : 0 < (zeroedPreds p t).sum := by
  have hcnt : 0 < numNonzero (zeroedPreds p t) := by
    rw [numNonzero_zeroedPreds p t ht (fun v hv => (hpos v hv).ne')]
    have : 0 < p.length := List.length_pos.mpr hp
    omega
  obtain ⟨v, hv, hvne⟩ := List.countP_pos_iff.mp hcnt
  have hvne' : v ≠ 0 := by simpa using hvne
  have hvp : 0 < v := by
    rcases zeroFrom_mem _ _ _ v hv with h | h
    · exact absurd h hvne'
    · exact hpos v h
  have hle : v ≤ (zeroedPreds p t).sum :=
    List.single_le_sum (zeroedPreds_nonneg p t (fun w hw => (hpos w hw).le)) v hv
  exact lt_of_lt_of_le hvp hle

/-- When the whole sort survives the slice nothing is zeroed. -/
lemma zeroedPreds_eq_self_of_ge (p : List ℚ) (t : Int) (ht : 1 ≤ t)
    (hge : p.length ≤ t.toNat) : zeroedPreds p t = p := by
  rw [zeroedPreds, pySlice_of_pos p t ht]
  have : p.length - t.toNat = 0 := by omega
  rw [this, List.take_zero, zeroFrom_nil]

/-- Setting `top_n = 0` also zeroes nothing: the slice `[:-0]` is `[:0]`, empty. -/
lemma zeroedPreds_eq_self_of_zero (p : List ℚ) : zeroedPreds p 0 = p := by
  rw [zeroedPreds]
  have : pySliceUpto (argsort p) (-(0:Int)) = [] := by
    rw [pySliceUpto]
    norm_num
  rw [this, zeroFrom_nil]

lemma pySlice_of_neg (l : List ℕ) (t : Int) (ht : t < 0) :
    pySliceUpto l (-t) = l.take (-t).toNat := by
  rw [pySliceUpto, if_neg (by omega : ¬ -t < 0)]

/-- C3, counterexample to the claim as stated: on the probability vector
`[1,0,0,0,0]` (entries ≥ 0, summing to 1) with `top_n = 2`, the zeroed
intermediate has one non-zero entry, not `min(top_n, vocab_size) = 2`:
one of the two surviving argsort slots holds a zero probability. -/
theorem pick_top_n_exact_count_cex :
    (∀ v ∈ [(1:ℚ), 0, 0, 0, 0], 0 ≤ v) ∧ ([(1:ℚ), 0, 0, 0, 0]).sum = 1 ∧
    numNonzero (zeroedPreds [(1:ℚ), 0, 0, 0, 0] 2) = 1 ∧
    min (Int.toNat 2) ([(1:ℚ), 0, 0, 0, 0]).length ≠ 1 := by
  refine ⟨by norm_num, by norm_num, ?_, by decide⟩
  have hA : argsort [(1:ℚ), 0, 0, 0, 0] = [1, 2, 3, 4, 0] := by
    norm_num [argsort, argRel, List.range_succ]
  rw [zeroedPreds, hA]
  have hS : pySliceUpto [1, 2, 3, 4, 0] (-(2:Int)) = [1, 2, 3] := rfl
  rw [hS]
  norm_num [numNonzero, zeroFrom, List.countP_cons]

/-- C3 (amended): for a strictly positive probability vector and
`top_n ≥ 1`, the zeroed intermediate distribution has exactly
`min(top_n, vocab_size)` non-zero entries (for merely non-negative
vectors this is only an upper bound, see the counterexample), its
renormalization sums exactly to 1, no entry is zeroed when
`top_n ≥ vocab_size`, and the index returned by `pick_top_n` always
carries strictly positive intermediate mass. -/
theorem pick_top_n_renormalization (p : List ℚ) (top_n : Int) (r : ℚ)
    (hpos : ∀ v ∈ p, 0 < v) (hsum : p.sum = 1) (htn : 1 ≤ top_n)
    (hr0 : 0 ≤ r) (hr1 : r < 1) :
    numNonzero (zeroedPreds p top_n) = min top_n.toNat p.length ∧
    (renormalize (zeroedPreds p top_n)).sum = 1 ∧
    (p.length ≤ top_n.toNat → zeroedPreds p top_n = p) ∧
    (pick_top_n p top_n r).1 < p.length ∧
    0 < (zeroedPreds p top_n).getD (pick_top_n p top_n r).1 0 := by
  have hp : p ≠ [] := by rintro rfl; simp at hsum
  have hs := zeroedPreds_sum_pos p top_n htn hp hpos
  have hrsum : (renormalize (zeroedPreds p top_n)).sum = 1 := renormalize_sum _ hs.ne'
  have hrs : r < (renormalize (zeroedPreds p top_n)).sum := by rw [hrsum]; exact hr1
  obtain ⟨hlt, hposc⟩ := cdfChoice_spec _ r hr0 hrs
  have hc : (pick_top_n p top_n r).1 = cdfChoice (renormalize (zeroedPreds p top_n)) r := rfl
  have hlen : (renormalize (zeroedPreds p top_n)).length = p.length := by
    rw [renormalize_length, zeroedPreds_length]
  have hlt' : (pick_top_n p top_n r).1 < p.length := by rw [hc]; omega
  refine ⟨numNonzero_zeroedPreds p top_n htn (fun v hv => (hpos v hv).ne'),
    hrsum, zeroedPreds_eq_self_of_ge p top_n htn, hlt', ?_⟩
  have hgd : (renormalize (zeroedPreds p top_n)).getD (pick_top_n p top_n r).1 0 =
      (zeroedPreds p top_n).getD (pick_top_n p top_n r).1 0 / (zeroedPreds p top_n).sum := by
    apply renormalize_getD
    rw [zeroedPreds_length]
    exact hlt'
  rw [hc] at hgd ⊢
  rw [hgd] at hposc
  rcases div_pos_iff.mp hposc with ⟨h1, _⟩ | ⟨_, h2⟩
  · exact h1
  · exact absurd hs (by linarith)

/-- C3 witness: the spec's concrete scenario
`pick_top_n([0.1,0.05,0.6,0.05,0.2], top_n=2)`: intermediate
`[0,0,0.75,0,0.25]`, draw restricted to indices 2 and 4. -/
theorem pick_top_n_renormalization_witness :
    ((∀ v ∈ exDist, 0 < v) ∧ exDist.sum = 1 ∧ (0:ℚ) ≤ 1/2 ∧ (1:ℚ)/2 < 1) ∧
    renormalize (zeroedPreds exDist 2) = [0, 0, 3/4, 0, 1/4] ∧
    (pick_top_n exDist 2 (1/2)).1 = 2 ∧ (pick_top_n exDist 2 (4/5)).1 = 4 ∧
    (numNonzero (zeroedPreds exDist 2) = min (Int.toNat 2) exDist.length ∧
      (renormalize (zeroedPreds exDist 2)).sum = 1 ∧
      (exDist.length ≤ Int.toNat 2 → zeroedPreds exDist 2 = exDist) ∧
      (pick_top_n exDist 2 (1/2)).1 < exDist.length ∧
      0 < (zeroedPreds exDist 2).getD (pick_top_n exDist 2 (1/2)).1 0) :=
  ⟨⟨by norm_num [exDist], by norm_num [exDist], by norm_num, by norm_num⟩,
   exDist_renorm,
   by rw [pick_top_n]; simp only [exDist_renorm]; norm_num [cdfChoice],
   by rw [pick_top_n]; simp only [exDist_renorm]; norm_num [cdfChoice],
   pick_top_n_renormalization exDist 2 (1/2) (by norm_num [exDist])
     (by norm_num [exDist]) (by norm_num) (by norm_num) (by norm_num)⟩

/-- C9 (confirmed): `np.squeeze` returns a view, so the zeroing writes
through into the caller's `preds`; after the call the caller's buffer
has every entry outside the `top_n` largest (the trailing `argsort`
block) set to 0, keeps the surviving entries un-renormalized, and is
genuinely overwritten whenever a zeroed entry was non-zero. -/
theorem pick_top_n_mutates_preds (p : List ℚ) (top_n : Int) (r : ℚ) (ht : 1 ≤ top_n) :
    ((pick_top_n p top_n r).2).length = p.length ∧
    (∀ i ∈ (argsort p).take (p.length - top_n.toNat),
      ((pick_top_n p top_n r).2).getD i 0 = 0) ∧
    (∀ j ∈ (argsort p).drop (p.length - top_n.toNat),
      ((pick_top_n p top_n r).2).getD j 0 = p.getD j 0) ∧
    (∀ i ∈ (argsort p).take (p.length - top_n.toNat),
      ∀ j ∈ (argsort p).drop (p.length - top_n.toNat), p.getD i 0 ≤ p.getD j 0) ∧
    ((∃ i ∈ (argsort p).take (p.length - top_n.toNat), p.getD i 0 ≠ 0) →
      (pick_top_n p top_n r).2 ≠ p) := by
  have h2 : (pick_top_n p top_n r).2 = zeroedPreds p top_n := rfl
  have hSeq : pySliceUpto (argsort p) (-top_n) =
      (argsort p).take (p.length - top_n.toNat) := pySlice_of_pos p top_n ht
  have hnd : ((argsort p).take (p.length - top_n.toNat) ++
      (argsort p).drop (p.length - top_n.toNat)).Nodup := by
    rw [List.take_append_drop]; exact argsort_nodup p
  have hdisj := (List.nodup_append.mp hnd).2.2
  have hget : ∀ i : ℕ, (zeroedPreds p top_n).getD i 0 =
      if i ∈ (argsort p).take (p.length - top_n.toNat) then 0 else p.getD i 0 := by
    intro i
    rw [zeroedPreds, hSeq]
    simpa using zeroFrom_getD _ p 0 i
  refine ⟨by rw [h2, zeroedPreds_length], ?_, ?_, ?_, ?_⟩
  · intro i hi
    rw [h2, hget i, if_pos hi]
  · intro j hj
    have hj' : j ∉ (argsort p).take (p.length - top_n.toNat) := by
      intro hmem
      exact hdisj hmem hj
    rw [h2, hget j, if_neg hj']
  · have hsort := argsort_sorted p
    rw [List.Sorted, ← List.take_append_drop (p.length - top_n.toNat) (argsort p),
      List.pairwise_append] at hsort
    intro i hi j hj
    exact hsort.2.2 i hi j hj
  · rintro ⟨i, hi, hine⟩ heq
    have h0 : (zeroedPreds p top_n).getD i 0 = 0 := by rw [hget i, if_pos hi]
    rw [← h2, heq] at h0
    exact hine h0

/-- C9 witness: on the concrete distribution with `top_n = 2` the
caller's buffer afterwards is the zeroed — not renormalized — vector
`[0, 0, 0.6, 0, 0.2]`, different from the input. -/
theorem pick_top_n_mutates_preds_witness :
    (pick_top_n exDist 2 0).2 = [0, 0, 3/5, 0, 1/5] ∧
    ((pick_top_n exDist 2 0).2).length = exDist.length ∧
    (∀ i ∈ (argsort exDist).take (exDist.length - Int.toNat 2),
      ((pick_top_n exDist 2 0).2).getD i 0 = 0) ∧
    (∀ j ∈ (argsort exDist).drop (exDist.length - Int.toNat 2),
      ((pick_top_n exDist 2 0).2).getD j 0 = exDist.getD j 0) ∧
    (∀ i ∈ (argsort exDist).take (exDist.length - Int.toNat 2),
      ∀ j ∈ (argsort exDist).drop (exDist.length - Int.toNat 2),
        exDist.getD i 0 ≤ exDist.getD j 0) ∧
    ((∃ i ∈ (argsort exDist).take (exDist.length - Int.toNat 2),
      exDist.getD i 0 ≠ 0) → (pick_top_n exDist 2 0).2 ≠ exDist) := by
  have h := pick_top_n_mutates_preds exDist 2 0 (by norm_num)
  exact ⟨exDist_zeroed, h.1, h.2.1, h.2.2.1, h.2.2.2.1, h.2.2.2.2⟩

/-- C8, counterexample to the claim as stated: `top_n = 0` is invalid
(`top_n <= 0`), yet `pick_top_n` neither signals an error nor clamps it
into the valid range: the slice `argsort(p)[:-0] = argsort(p)[:0]` is
empty, so nothing is zeroed and all 5 entries survive — while the
clamped value `top_n = 1` keeps exactly one entry. -/
theorem pick_top_n_invalid_topn_cex :
    (pick_top_n exDist 0 (1/2)).2 = exDist ∧
    numNonzero (pick_top_n exDist 0 (1/2)).2 = 5 ∧
    (pick_top_n exDist 1 (1/2)).2 = [0, 0, 3/5, 0, 0] ∧
    numNonzero (pick_top_n exDist 1 (1/2)).2 = 1 := by
  have h0 : (pick_top_n exDist 0 (1/2)).2 = zeroedPreds exDist 0 := rfl
  have h1 : (pick_top_n exDist 1 (1/2)).2 = zeroedPreds exDist 1 := rfl
  have hz1 : zeroedPreds exDist 1 = [0, 0, 3/5, 0, 0] := by
    rw [zeroedPreds, exDist_argsort]
    have hS : pySliceUpto [1, 3, 0, 4, 2] (-(1:Int)) = [1, 3, 0, 4] := rfl
    rw [hS]
    norm_num [exDist, zeroFrom]
  refine ⟨h0.trans (zeroedPreds_eq_self_of_zero exDist), ?_, h1.trans hz1, ?_⟩
  · rw [h0, zeroedPreds_eq_self_of_zero exDist]
    norm_num [exDist, numNonzero, List.countP_cons]
  · rw [h1, hz1]
    norm_num [numNonzero, List.countP_cons]

/-- C8 (amended): invalid `top_n` is neither rejected nor clamped —
`pick_top_n` is total, `top_n = 0` and `top_n ≥ vocab_size` zero
nothing, and negative `top_n` zeroes the `|top_n|` *smallest* entries
(keeping `vocab_size - |top_n|`), a behaviour matching no single
reject-or-clamp policy. -/
theorem pick_top_n_invalid_topn (p : List ℚ) (t : Int) (r : ℚ)
    (hpos : ∀ v ∈ p, v ≠ 0) :
    ((pick_top_n p 0 r).2 = p) ∧
    (1 ≤ t → p.length ≤ t.toNat → (pick_top_n p t r).2 = p) ∧
    (t < 0 → numNonzero (pick_top_n p t r).2 =
      p.length - min (-t).toNat p.length) := by
  refine ⟨zeroedPreds_eq_self_of_zero p, ?_, ?_⟩
  · intro h1 hge
    exact zeroedPreds_eq_self_of_ge p t h1 hge
  · intro hneg
    have h2 : (pick_top_n p t r).2 = zeroedPreds p t := rfl
    rw [h2, zeroedPreds, pySlice_of_neg _ t hneg]
    have hnd : ((argsort p).take (-t).toNat).Nodup :=
      (argsort_nodup p).sublist (List.take_sublist _ _)
    have hlt : ∀ i ∈ (argsort p).take (-t).toNat, i < 0 + p.length := by
      intro i hi
      simpa using argsort_mem.mp (List.mem_of_mem_take hi)
    rw [numNonzero_zeroFrom _ hnd p 0 hpos hlt, countP_zero_le,
      List.length_take, argsort_length]

/-- C8 witness: at `top_n = -2` on the 5-entry distribution the result
keeps `5 - 2 = 3` entries — matching neither clamp boundary. -/
theorem pick_top_n_invalid_topn_witness :
    (∀ v ∈ exDist, v ≠ 0) ∧
    ((pick_top_n exDist 0 0).2 = exDist ∧
      (1 ≤ (-2 : Int) → exDist.length ≤ Int.toNat (-2) → (pick_top_n exDist (-2) 0).2 = exDist) ∧
      ((-2 : Int) < 0 → numNonzero (pick_top_n exDist (-2) 0).2 =
        exDist.length - min (Int.toNat (-(-2))) exDist.length)) ∧
    numNonzero (pick_top_n exDist (-2) 0).2 = 3 :=
  ⟨by norm_num [exDist],
   pick_top_n_invalid_topn exDist (-2) 0 (by norm_num [exDist]),
   by
    have h := (pick_top_n_invalid_topn exDist (-2) 0 (by norm_num [exDist])).2.2
      (by norm_num)
    rw [h]
    decide⟩

/-! ## `sample`

Source (cell 41 of the first notebook; the second differs only in
hard-coding `prime = "Far"`):
```
def sample(checkpoint, n_samples, lstm_size, vocab_size, prime="The "):
    samples = [c for c in prime]
    ...
    with tf.Session() as sess:
        saver.restore(sess, checkpoint)
        new_state = sess.run(model.initial_state)
        for c in prime:
            x = np.zeros((1, 1))
            x[0,0] = vocab_to_int[c]
            feed = {...}
            preds, new_state = sess.run([model.preds, model.final_state], feed_dict=feed)

        c = pick_top_n(preds, len(vocab))
        samples.append(int_to_vocab[c])

        for i in range(n_samples):
            x[0,0] = c
            feed = {...}
            preds, new_state = sess.run([model.preds, model.final_state], feed_dict=feed)

            c = pick_top_n(preds, len(vocab))
            samples.append(int_to_vocab[c])

    return ''.join(samples)
```
The restored TensorFlow model is opaque; we abstract one
`sess.run([model.preds, model.final_state], ...)` call into a step
function `step : σ → ℕ → List ℚ × σ` on an opaque state type `σ` with
initial state `s0`, the dictionaries `vocab_to_int` / `int_to_vocab`
into `vti : Char → Option ℕ` (a missing key raises `KeyError`, the
spec's `UnknownCharacter`) and a total `itv : ℕ → Char`
(`dict(enumerate(vocab))` covers every index the draw can produce), and
the stream of uniform draws consumed by the `pick_top_n` calls into
`rs : ℕ → ℚ`.  `pick_top_n` is called with its default `top_n = 5`.
If `prime` is empty the priming loop never assigns `preds`, and the
first `pick_top_n(preds, ...)` raises `NameError` (unbound local)
before any output is produced. -/

/-- The two failure conditions `sample` can raise. -/
inductive SampleError : Type where
  | unknownCharacter : Char → SampleError
  | unboundLocalPreds : SampleError
deriving DecidableEq

/-- The priming loop: `for c in prime: ... preds, new_state = sess.run(...)`.
Carries the last prediction (`none` when the loop never ran) and the
hidden state; a character missing from `vocab_to_int` raises `KeyError`. -/
def primeLoop {σ : Type} (vti : Char → Option ℕ) (step : σ → ℕ → List ℚ × σ) :
    Option (List ℚ) → σ → List Char → Except SampleError (Option (List ℚ) × σ)
  | ps, s, [] => Except.ok (ps, s)
  | _, s, c :: rest =>
    match vti c with
    | none => Except.error (SampleError.unknownCharacter c)
    | some k =>
      let out := step s k
      primeLoop vti step (some out.1) out.2 rest

/-- The generation loop: `for i in range(n_samples): ...`, appending one
decoded character per iteration (`i` indexes the draw stream). -/
def genLoop {σ : Type} (itv : ℕ → Char) (step : σ → ℕ → List ℚ × σ) (rs : ℕ → ℚ) :
    σ → ℕ → ℕ → ℕ → List Char
  | _, _, 0, _ => []
  | s, c, m + 1, i =>
    let out := step s c
    let c2 := (pick_top_n out.1 5 (rs i)).1
    itv c2 :: genLoop itv step rs out.2 c2 m (i + 1)

/-- Model of `sample`: prime, then draw once, then generate `n_samples` more.
Note the draw between the two loops: the output has
`len(prime) + n_samples + 1` characters. -/
def sample {σ : Type} (vti : Char → Option ℕ) (itv : ℕ → Char)
    (step : σ → ℕ → List ℚ × σ) (s0 : σ) (rs : ℕ → ℚ)
    (n_samples : ℕ) (prime : List Char) : Except SampleError (List Char) :=
  match primeLoop vti step none s0 prime with
  | Except.error e => Except.error e
  | Except.ok (none, _) => Except.error SampleError.unboundLocalPreds
  | Except.ok (some preds, s) =>
    let c := (pick_top_n preds 5 (rs 0)).1
    Except.ok (prime ++ itv c :: genLoop itv step rs s c n_samples 1)

lemma genLoop_length {σ : Type} (itv : ℕ → Char) (step : σ → ℕ → List ℚ × σ)
    (rs : ℕ → ℚ) (s : σ) (c m i : ℕ) :
    (genLoop itv step rs s c m i).length = m := by
  induction m generalizing s c i with
  | zero => rfl
  | succ k ih => simp [genLoop, ih]

/-- When every character of `prime` is in the vocabulary the priming
loop completes, and leaves a prediction behind iff it ran at least once
(or one was already there). -/
lemma primeLoop_ok {σ : Type} (vti : Char → Option ℕ) (step : σ → ℕ → List ℚ × σ)
    (prime : List Char) (hknown : ∀ c ∈ prime, (vti c).isSome) :
    ∀ (ps : Option (List ℚ)) (s : σ), ∃ pr s2,
      primeLoop vti step ps s prime = Except.ok (pr, s2) ∧
      (prime = [] → pr = ps) ∧ (prime ≠ [] → pr.isSome) := by
  induction prime with
  | nil => intro ps s; exact ⟨ps, s, rfl, fun _ => rfl, fun h => absurd rfl h⟩
  | cons c rest ih =>
    intro ps s
    obtain ⟨k, hk⟩ := Option.isSome_iff_exists.mp (hknown c (List.mem_cons_self _ _))
    obtain ⟨pr, s2, hrun, hnil, hcons⟩ :=
      ih (fun d hd => hknown d (List.mem_cons_of_mem _ hd))
        (some (step s k).1) (step s k).2
    refine ⟨pr, s2, ?_, ?_, ?_⟩
    · rw [primeLoop, hk]
      exact hrun
    · intro h; exact absurd h (List.cons_ne_nil _ _)
    · intro _
      rcases List.eq_nil_or_concat rest with h | _
      · subst h; rw [hnil rfl]; rfl
      · rcases rest with _ | ⟨d, ds⟩
        · rw [hnil rfl]; rfl
        · exact hcons (List.cons_ne_nil _ _)

/-- The priming loop raises `UnknownCharacter` iff some character of
`prime` is missing from the vocabulary. -/
lemma primeLoop_error_iff {σ : Type} (vti : Char → Option ℕ)
    (step : σ → ℕ → List ℚ × σ) (prime : List Char) :
    ∀ (ps : Option (List ℚ)) (s : σ),
      ((∃ c ∈ prime, vti c = none) ↔
        ∃ c, primeLoop vti step ps s prime =
          Except.error (SampleError.unknownCharacter c)) := by
  induction prime with
  | nil =>
    intro ps s
    constructor
    · rintro ⟨c, hc, _⟩; exact absurd hc (List.not_mem_nil c)
    · rintro ⟨c, hc⟩; exact absurd hc (by simp [primeLoop])
  | cons c rest ih =>
    intro ps s
    cases hk : vti c with
    | none =>
      constructor
      · intro _; exact ⟨c, by rw [primeLoop, hk]⟩
      · intro _; exact ⟨c, List.mem_cons_self _ _, hk⟩
    | some k =>
      have hrec := ih (some (step s k).1) (step s k).2
      constructor
      · rintro ⟨d, hd, hdn⟩
        rcases List.mem_cons.mp hd with rfl | hd'
        · exact absurd hk (by rw [hdn]; exact fun h => Option.noConfusion h)
        · obtain ⟨e, he⟩ := hrec.mp ⟨d, hd', hdn⟩
          exact ⟨e, by rw [primeLoop, hk]; exact he⟩
      · rintro ⟨e, he⟩
        rw [primeLoop, hk] at he
        obtain ⟨d, hd, hdn⟩ := hrec.mpr ⟨e, he⟩
        exact ⟨d, List.mem_cons_of_mem _ hd, hdn⟩

/-- Core behaviour of `sample` on a fully-known, non-empty prime:
success, with `len(prime) + n_samples + 1` output characters starting
with `prime` (one draw happens between the two loops, then one per
generation iteration). -/
lemma sample_ok_spec {σ : Type} (vti : Char → Option ℕ) (itv : ℕ → Char)
    (step : σ → ℕ → List ℚ × σ) (s0 : σ) (rs : ℕ → ℚ) (n_samples : ℕ)
    (prime : List Char) (hne : prime ≠ [])
    (hknown : ∀ c ∈ prime, (vti c).isSome) :
    ∃ out, sample vti itv step s0 rs n_samples prime = Except.ok out ∧
      out.length = prime.length + n_samples + 1 ∧
      out.take prime.length = prime := by
  obtain ⟨pr, s2, hrun, _, hsome⟩ := primeLoop_ok vti step prime hknown none s0
  obtain ⟨preds, hpr⟩ := Option.isSome_iff_exists.mp (hsome hne)
  subst hpr
  refine ⟨prime ++ itv ((pick_top_n preds 5 (rs 0)).1) ::
      genLoop itv step rs s2 ((pick_top_n preds 5 (rs 0)).1) n_samples 1, ?_, ?_, ?_⟩
  · rw [sample, hrun]
  · simp only [List.length_append, List.length_cons, genLoop_length]
    omega
  · exact List.take_left prime _

/-- C1 (amended): for every model, non-empty all-known prime and
`n_samples`, `sample` succeeds and returns `prime` followed by the
generated characters, of total length `len(prime) + n_samples + 1` —
one more than the claimed `len(prime) + n_samples`, because a character
is drawn from the last priming prediction before the `n_samples`-step
generation loop. -/
theorem sample_length (σ : Type) (vti : Char → Option ℕ) (itv : ℕ → Char)
    (step : σ → ℕ → List ℚ × σ) (s0 : σ) (rs : ℕ → ℚ) (n_samples : ℕ)
    (prime : List Char) (hne : prime ≠ [])
    (hknown : ∀ c ∈ prime, (vti c).isSome) :
    ∃ out, sample vti itv step s0 rs n_samples prime = Except.ok out ∧
      out.length = prime.length + n_samples + 1 ∧
      out.take prime.length = prime :=
  sample_ok_spec vti itv step s0 rs n_samples prime hne hknown

/-- C1, counterexample to the claim as stated: a one-character
vocabulary model primed with `"a"` and `n_samples = 0` returns `"aa"`,
of length 2, not `len(prime) + n_samples = 1`. -/
theorem sample_length_cex :
    sample (fun c => if c = 'a' then some 0 else none) (fun _ => 'a')
        (fun (_ : Unit) (_ : ℕ) => (([1] : List ℚ), ())) () (fun _ => 0) 0 ['a'] =
      Except.ok ['a', 'a'] ∧
    (['a', 'a'] : List Char).length ≠ (['a'] : List Char).length + 0 := by
  constructor
  · have h1 : zeroedPreds [(1:ℚ)] 5 = [1] :=
      zeroedPreds_eq_self_of_ge [(1:ℚ)] 5 (by norm_num) (by norm_num)
    have h2 : renormalize [(1:ℚ)] = [1] := by norm_num [renormalize]
    have h3 : (pick_top_n [(1:ℚ)] 5 0).1 = 0 := by
      show cdfChoice (renormalize (zeroedPreds [(1:ℚ)] 5)) 0 = 0
      rw [h1, h2]
      norm_num [cdfChoice]
    have hrun : primeLoop (fun c => if c = 'a' then some 0 else none)
        (fun (_ : Unit) (_ : ℕ) => (([1] : List ℚ), ())) none () ['a'] =
        Except.ok (some [1], ()) := rfl
    rw [sample, hrun]
    simp [h3, genLoop]
  · simp

/-- C1 witness for the amended theorem: primed with `"a"` and
`n_samples = 2`, the output has `1 + 2 + 1 = 4` characters and starts
with `"a"`. -/
theorem sample_length_witness :
    (['a'] : List Char) ≠ [] ∧
    (∀ c ∈ (['a'] : List Char),
      ((fun c => if c = 'a' then some 0 else none : Char → Option ℕ) c).isSome) ∧
    ∃ out, sample (fun c => if c = 'a' then some 0 else none) (fun _ => 'a')
        (fun (_ : Unit) (_ : ℕ) => (([1] : List ℚ), ())) () (fun _ => 0) 2 ['a'] =
        Except.ok out ∧
      out.length = (['a'] : List Char).length + 2 + 1 ∧
      out.take (['a'] : List Char).length = ['a'] :=
  ⟨by simp, by decide,
   sample_length Unit (fun c => if c = 'a' then some 0 else none) (fun _ => 'a')
     (fun _ _ => ([1], ())) () (fun _ => 0) 2 ['a'] (by simp) (by decide)⟩

/-- C7 (confirmed): the priming phase raises `UnknownCharacter` iff
some character of `prime` is absent from the vocabulary; with all
characters known it completes, and any priming error propagates
unchanged out of `sample` to the caller. -/
theorem priming_unknown_character (σ : Type) (vti : Char → Option ℕ)
    (itv : ℕ → Char) (step : σ → ℕ → List ℚ × σ) (s0 : σ) (rs : ℕ → ℚ)
    (n_samples : ℕ) (prime : List Char) :
    ((∃ c ∈ prime, vti c = none) ↔
      ∃ c, primeLoop vti step none s0 prime =
        Except.error (SampleError.unknownCharacter c)) ∧
    ((∀ c ∈ prime, (vti c).isSome) →
      ∃ res, primeLoop vti step none s0 prime = Except.ok res) ∧
    (∀ e, primeLoop vti step none s0 prime = Except.error e →
      sample vti itv step s0 rs n_samples prime = Except.error e) := by
  refine ⟨primeLoop_error_iff vti step prime none s0, ?_, ?_⟩
  · intro hknown
    obtain ⟨pr, s2, hrun, _, _⟩ := primeLoop_ok vti step prime hknown none s0
    exact ⟨(pr, s2), hrun⟩
  · intro e he
    rw [sample, he]

/-- C7 witness: priming `"ab"` against a vocabulary containing only
`'a'` raises `UnknownCharacter 'b'`; priming `"a"` succeeds. -/
theorem priming_unknown_character_witness :
    (∃ c ∈ (['a', 'b'] : List Char),
      (fun c => if c = 'a' then some 0 else none : Char → Option ℕ) c = none) ∧
    (∃ c, primeLoop (fun c => if c = 'a' then some 0 else none)
        (fun (_ : Unit) (_ : ℕ) => (([1] : List ℚ), ())) none () ['a', 'b'] =
        Except.error (SampleError.unknownCharacter c)) ∧
    (∃ res, primeLoop (fun c => if c = 'a' then some 0 else none)
        (fun (_ : Unit) (_ : ℕ) => (([1] : List ℚ), ())) none () ['a'] =
        Except.ok res) :=
  ⟨⟨'b', by decide⟩,
   (priming_unknown_character Unit (fun c => if c = 'a' then some 0 else none)
     (fun _ => 'a') (fun _ _ => ([1], ())) () (fun _ => 0) 0 ['a', 'b']).1.mp
     ⟨'b', by decide⟩,
   (priming_unknown_character Unit (fun c => if c = 'a' then some 0 else none)
     (fun _ => 'a') (fun _ _ => ([1], ())) () (fun _ => 0) 0 ['a']).2.1
     (by decide)⟩

/-- C10 (confirmed): with an empty prime the priming loop never binds
`preds`, so `sample` fails with the `NameError` (unbound local) at the
first `pick_top_n` call, before producing any output; with a non-empty
fully-known prime that branch is unreachable and `sample` succeeds. -/
theorem sample_empty_prime (σ : Type) (vti : Char → Option ℕ) (itv : ℕ → Char)
    (step : σ → ℕ → List ℚ × σ) (s0 : σ) (rs : ℕ → ℚ) (n_samples : ℕ) :
    sample vti itv step s0 rs n_samples [] =
      Except.error SampleError.unboundLocalPreds ∧
    (∀ prime : List Char, prime ≠ [] → (∀ c ∈ prime, (vti c).isSome) →
      ∃ out, sample vti itv step s0 rs n_samples prime = Except.ok out) := by
  refine ⟨rfl, ?_⟩
  intro prime hne hknown
  obtain ⟨out, hout, _, _⟩ := sample_ok_spec vti itv step s0 rs n_samples prime hne hknown
  exact ⟨out, hout⟩

/-- C10 witness: the one-character-vocabulary model fails on the empty
prime with the unbound-local error and succeeds on `"a"`. -/
theorem sample_empty_prime_witness :
    sample (fun c => if c = 'a' then some 0 else none) (fun _ => 'a')
        (fun (_ : Unit) (_ : ℕ) => (([1] : List ℚ), ())) () (fun _ => 0) 3 [] =
      Except.error SampleError.unboundLocalPreds ∧
    ∃ out, sample (fun c => if c = 'a' then some 0 else none) (fun _ => 'a')
        (fun (_ : Unit) (_ : ℕ) => (([1] : List ℚ), ())) () (fun _ => 0) 3 ['a'] =
      Except.ok out :=
  ⟨(sample_empty_prime Unit (fun c => if c = 'a' then some 0 else none)
      (fun _ => 'a') (fun _ _ => ([1], ())) () (fun _ => 0) 3).1,
   (sample_empty_prime Unit (fun c => if c = 'a' then some 0 else none)
      (fun _ => 'a') (fun _ _ => ([1], ())) () (fun _ => 0) 3).2 ['a']
     (by simp) (by decide)⟩

/-! ## `split_data` and `get_batch`

Source (both notebooks, identical):
```
def split_data(chars, batch_size, num_steps, split_frac=0.9):
    slice_size = batch_size * num_steps
    n_batches = int(len(chars) / slice_size)
    x = chars[: n_batches*slice_size]
    y = chars[1: n_batches*slice_size + 1]
    x = np.stack(np.split(x, batch_size))
    y = np.stack(np.split(y, batch_size))
    split_idx = int(n_batches*split_frac)
    train_x, train_y = x[:, :split_idx*num_steps], y[:, :split_idx*num_steps]
    val_x, val_y = x[:, split_idx*num_steps:], y[:, split_idx*num_steps:]
    return train_x, train_y, val_x, val_y

def get_batch(arrs, num_steps):
    batch_size, slice_size = arrs[0].shape
    n_batches = int(slice_size/num_steps)
    for b in range(n_batches):
        yield [x[:, b*num_steps: (b+1)*num_steps] for x in arrs]
```
The integer-coded corpus is a `List ℕ`, a 2-D array a list of rows.
`slice_size = 0` raises `ZeroDivisionError` in Python, and
`np.split(a, b)` raises `ValueError` unless `b` divides `len(a)` —
both modelled as `Except.error`.  `int(x)` on the non-negative values
involved is the floor. -/

/-- The rows produced by `np.split(l, b)` when `b` divides `l.length`. -/
def npSplitRows (l : List ℕ) (b : ℕ) : List (List ℕ) :=
  (List.range b).map (fun i => (l.drop (i * (l.length / b))).take (l.length / b))

/-- Model of `split_data`, with the two numpy failure modes made explicit. -/
def split_data (chars : List ℕ) (batch_size num_steps : ℕ) (split_frac : ℚ) :
    Except String
      (List (List ℕ) × List (List ℕ) × List (List ℕ) × List (List ℕ)) :=
  if batch_size * num_steps = 0 then Except.error "ZeroDivisionError" else
  let slice_size := batch_size * num_steps
  let n_batches := chars.length / slice_size
  let x := chars.take (n_batches * slice_size)
  let y := (chars.drop 1).take (n_batches * slice_size)
  if x.length % batch_size ≠ 0 then
    Except.error "ValueError: array split does not result in an equal division"
  else if y.length % batch_size ≠ 0 then
    Except.error "ValueError: array split does not result in an equal division"
  else
    let xs := npSplitRows x batch_size
    let ys := npSplitRows y batch_size
    let split_idx := (⌊(n_batches : ℚ) * split_frac⌋).toNat
    Except.ok (xs.map (fun r => r.take (split_idx * num_steps)),
      ys.map (fun r => r.take (split_idx * num_steps)),
      xs.map (fun r => r.drop (split_idx * num_steps)),
      ys.map (fun r => r.drop (split_idx * num_steps)))

/-- Model of `get_batch` (the lazy generator, as the finite list of its yields). -/
def get_batch (arrs : List (List (List ℕ))) (num_steps : ℕ) :
    List (List (List (List ℕ))) :=
  let slice_size := ((arrs.headD []).headD []).length
  let n_batches := slice_size / num_steps
  (List.range n_batches).map (fun b =>
    arrs.map (fun m => m.map (fun row => (row.drop (b * num_steps)).take num_steps)))

lemma npSplitRows_length (l : List ℕ) (b : ℕ) : (npSplitRows l b).length = b := by
  simp [npSplitRows]

lemma npSplitRows_getD (l : List ℕ) (b i : ℕ) (hi : i < b) :
    (npSplitRows l b).getD i [] =
      (l.drop (i * (l.length / b))).take (l.length / b) := by
  rw [npSplitRows, List.getD_eq_getElem?_getD, List.getElem?_map,
    List.getElem?_range hi]
  rfl

lemma getD_map_nil (f : List ℕ → List ℕ) (hf : f [] = []) (l : List (List ℕ))
    (i : ℕ) : (l.map f).getD i [] = f (l.getD i []) := by
  rw [List.getD_eq_getElem?_getD, List.getElem?_map, List.getD_eq_getElem?_getD]
  cases h : l[i]? <;> simp [h, hf]

lemma row_getD (l : List ℕ) (R a j : ℕ) (hj : j < R) :
    ((l.drop a).take R).getD j 0 = l.getD (a + j) 0 := by
  rw [List.getD_eq_getElem?_getD, List.getElem?_take, if_pos hj, List.getElem?_drop,
    List.getD_eq_getElem?_getD]

/-- Inversion: a successful `split_data` pins down the guard conditions
and all four components. -/
lemma split_data_ok_inv {chars : List ℕ} {b s : ℕ} {frac : ℚ}
    {res : List (List ℕ) × List (List ℕ) × List (List ℕ) × List (List ℕ)}
    (h : split_data chars b s frac = Except.ok res) :
    b * s ≠ 0 ∧
    (chars.take (chars.length / (b * s) * (b * s))).length % b = 0 ∧
    ((chars.drop 1).take (chars.length / (b * s) * (b * s))).length % b = 0 ∧
    res =
      ((npSplitRows (chars.take (chars.length / (b * s) * (b * s))) b).map
        (fun r => r.take ((⌊((chars.length / (b * s) : ℕ) : ℚ) * frac⌋).toNat * s)),
      (npSplitRows ((chars.drop 1).take (chars.length / (b * s) * (b * s))) b).map
        (fun r => r.take ((⌊((chars.length / (b * s) : ℕ) : ℚ) * frac⌋).toNat * s)),
      (npSplitRows (chars.take (chars.length / (b * s) * (b * s))) b).map
        (fun r => r.drop ((⌊((chars.length / (b * s) : ℕ) : ℚ) * frac⌋).toNat * s)),
      (npSplitRows ((chars.drop 1).take (chars.length / (b * s) * (b * s))) b).map
        (fun r => r.drop ((⌊((chars.length / (b * s) : ℕ) : ℚ) * frac⌋).toNat * s))) := by
  rw [split_data] at h
  by_cases h0 : b * s = 0
  · rw [if_pos h0] at h
    exact absurd h (by simp)
  rw [if_neg h0] at h
  simp only [] at h
  by_cases hx : (chars.take (chars.length / (b * s) * (b * s))).length % b = 0
  · rw [if_neg (not_not_intro hx)] at h
    by_cases hy : ((chars.drop 1).take (chars.length / (b * s) * (b * s))).length % b = 0
    · rw [if_neg (not_not_intro hy)] at h
      refine ⟨h0, hx, hy, ?_⟩
      exact (Except.ok.injEq _ _ ▸ h).symm
    · rw [if_pos hy] at h
      exact absurd h (by simp)
  · rw [if_pos hx] at h
    exact absurd h (by simp)

/-- Evaluation: when both `np.split` divisibility guards hold,
`split_data` succeeds with the four mapped row lists. -/
lemma split_data_eq_ok (chars : List ℕ) (b s : ℕ) (frac : ℚ) (h0 : b * s ≠ 0)
    (hx : (chars.take (chars.length / (b * s) * (b * s))).length % b = 0)
    (hy : ((chars.drop 1).take (chars.length / (b * s) * (b * s))).length % b = 0) :
    split_data chars b s frac = Except.ok
      ((npSplitRows (chars.take (chars.length / (b * s) * (b * s))) b).map
        (fun r => r.take ((⌊((chars.length / (b * s) : ℕ) : ℚ) * frac⌋).toNat * s)),
      (npSplitRows ((chars.drop 1).take (chars.length / (b * s) * (b * s))) b).map
        (fun r => r.take ((⌊((chars.length / (b * s) : ℕ) : ℚ) * frac⌋).toNat * s)),
      (npSplitRows (chars.take (chars.length / (b * s) * (b * s))) b).map
        (fun r => r.drop ((⌊((chars.length / (b * s) : ℕ) : ℚ) * frac⌋).toNat * s)),
      (npSplitRows ((chars.drop 1).take (chars.length / (b * s) * (b * s))) b).map
        (fun r => r.drop ((⌊((chars.length / (b * s) : ℕ) : ℚ) * frac⌋).toNat * s))) := by
  rw [split_data, if_neg h0]
  simp only []
  rw [if_neg (not_not_intro hx), if_neg (not_not_intro hy)]

/-- C6 (confirmed): a corpus shorter than one `batch_size * num_steps`
window yields zero full windows; `split_data` succeeds, returning
`batch_size` empty rows in each of the four tensors instead of raising. -/
theorem split_data_insufficient_corpus (chars : List ℕ) (b s : ℕ) (frac : ℚ)
    (hb : 1 ≤ b) (hs : 1 ≤ s) (hshort : chars.length < b * s) :
    ∃ tx ty vx vy, split_data chars b s frac = Except.ok (tx, ty, vx, vy) ∧
      tx.length = b ∧ ty.length = b ∧ vx.length = b ∧ vy.length = b ∧
      (∀ r ∈ tx, r = []) ∧ (∀ r ∈ ty, r = []) ∧
      (∀ r ∈ vx, r = []) ∧ (∀ r ∈ vy, r = []) := by
  have h0 : b * s ≠ 0 := (Nat.mul_pos hb hs).ne'
  have hnb : chars.length / (b * s) = 0 := Nat.div_eq_of_lt hshort
  have heq := split_data_eq_ok chars b s frac h0
    (by rw [hnb, Nat.zero_mul, List.take_zero]; simp)
    (by rw [hnb, Nat.zero_mul, List.take_zero]; simp)
  rw [hnb, Nat.zero_mul, List.take_zero] at heq
  refine ⟨_, _, _, _, heq, ?_, ?_, ?_, ?_, ?_, ?_, ?_, ?_⟩ <;>
    simp [npSplitRows, List.mem_map]

/-- C2, counterexample to the claim as stated: on the spec's own
scenario — corpus `"abcabcabcabc"` encoded as 12 integers,
`batch_size = 2`, `num_steps = 3` (an exact multiple: 2 windows) —
`split_data` does *not* return well-defined tensors: `y` has
`12 - 1 = 11` elements and `np.split(y, 2)` raises `ValueError`. -/
theorem split_data_exact_multiple_cex :
    split_data [0, 1, 2, 0, 1, 2, 0, 1, 2, 0, 1, 2] 2 3 (1/2) =
      Except.error "ValueError: array split does not result in an equal division" := rfl

/-- C2 (amended): on a corpus whose length is an exact non-zero
multiple of `batch_size * num_steps`, `split_data` raises `np.split`'s
`ValueError` whenever `batch_size ≥ 2` (the one-short `Y` buffer is not
divisible); only for `batch_size = 1` does it return tensors, with the
final target truncated (`val_y` one column shorter than `val_x`). -/
theorem split_data_exact_multiple (chars : List ℕ) (b s k : ℕ) (frac : ℚ)
    (hs : 1 ≤ s) (hk : 1 ≤ k) (hlen : chars.length = b * s * k) :
    (2 ≤ b → ∃ msg, split_data chars b s frac = Except.error msg) ∧
    (b = 1 → 0 ≤ frac → frac < 1 → ∃ tx ty vx vy,
      split_data chars 1 s frac = Except.ok (tx, ty, vx, vy) ∧
      (vy.getD 0 []).length + 1 = (vx.getD 0 []).length) := by
  constructor
  · intro hb2
    have h0 : b * s ≠ 0 := (Nat.mul_pos (by omega) hs).ne'
    have hnb : chars.length / (b * s) = k := by
      rw [hlen, Nat.mul_div_cancel_left _ (Nat.pos_of_ne_zero h0)]
    have hxlen : (chars.take (chars.length / (b * s) * (b * s))).length =
        chars.length := by
      rw [hnb, List.length_take, hlen]
      have : k * (b * s) = b * s * k := by ring
      omega
    have hylen : ((chars.drop 1).take (chars.length / (b * s) * (b * s))).length =
        chars.length - 1 := by
      rw [hnb, List.length_take, List.length_drop, hlen]
      have : k * (b * s) = b * s * k := by ring
      omega
    have hlen1 : 1 ≤ chars.length := by
      rw [hlen]
      have := Nat.mul_pos (Nat.mul_pos (by omega : 0 < b) hs) hk
      omega
    have hy : ((chars.drop 1).take (chars.length / (b * s) * (b * s))).length % b ≠ 0 := by
      rw [hylen]
      intro hmod
      have hdvd1 : b ∣ chars.length - 1 := Nat.dvd_of_mod_eq_zero hmod
      have hdvd0 : b ∣ chars.length := by
        rw [hlen]
        exact Dvd.dvd.mul_right (Dvd.dvd.mul_right dvd_rfl s) k
      have : b ∣ chars.length - (chars.length - 1) := Nat.dvd_sub' hdvd0 hdvd1
      rw [show chars.length - (chars.length - 1) = 1 by omega] at this
      have := Nat.le_of_dvd one_pos this
      omega
    refine ⟨"ValueError: array split does not result in an equal division", ?_⟩
    rw [split_data, if_neg h0]
    simp only []
    rw [if_neg (not_not_intro (by
        rw [hxlen, hlen, mul_assoc]; exact Nat.mul_mod_right b (s * k))),
      if_pos hy]
  · rintro rfl hf0 hf1
    have h0 : 1 * s ≠ 0 := by omega
    have hnb : chars.length / (1 * s) = k := by
      rw [hlen, Nat.mul_div_cancel_left _ (Nat.pos_of_ne_zero h0)]
    have heq := split_data_eq_ok chars 1 s frac h0
      (by simp [Nat.mod_one]) (by simp [Nat.mod_one])
    refine ⟨_, _, _, _, heq, ?_⟩
    have hxlen : (chars.take (chars.length / (1 * s) * (1 * s))).length = s * k := by
      rw [hnb, List.length_take, hlen]
      have h1 : k * (1 * s) = 1 * s * k := by ring
      have h2 : 1 * s * k = s * k := by ring
      omega
    have hylen : ((chars.drop 1).take (chars.length / (1 * s) * (1 * s))).length =
        s * k - 1 := by
      rw [hnb, List.length_take, List.length_drop, hlen]
      have h1 : k * (1 * s) = 1 * s * k := by ring
      have h2 : 1 * s * k = s * k := by ring
      omega
    set c := (⌊((chars.length / (1 * s) : ℕ) : ℚ) * frac⌋).toNat * s with hc
    have hsplitlt : (⌊((chars.length / (1 * s) : ℕ) : ℚ) * frac⌋).toNat < k := by
      rw [hnb]
      have hflt : ⌊(k : ℚ) * frac⌋ < (k : ℤ) := by
        rw [Int.floor_lt]
        push_cast
        calc (k : ℚ) * frac < (k : ℚ) * 1 := by
              apply mul_lt_mul_of_pos_left hf1
              exact_mod_cast hk
          _ = (k : ℚ) := mul_one _
      omega
    have hcle : c ≤ s * k - 1 := by
      rw [hc]
      have h1 : (⌊((chars.length / (1 * s) : ℕ) : ℚ) * frac⌋).toNat * s ≤ (k - 1) * s :=
        Nat.mul_le_mul_right s (by omega)
      have h2 : (k - 1) * s ≤ s * k - s := by
        have : (k - 1) * s = k * s - s := by
          rw [Nat.sub_mul, one_mul]
        rw [this, Nat.mul_comm k s]
      omega
    have hvx : ((npSplitRows (chars.take (chars.length / (1 * s) * (1 * s))) 1).map
        (fun r => r.drop c)).getD 0 [] =
        (chars.take (chars.length / (1 * s) * (1 * s))).drop c := by
      rw [getD_map_nil _ (by simp), npSplitRows_getD _ _ _ one_pos]
      simp only [Nat.zero_mul, List.drop_zero, Nat.div_one, List.take_length]
    have hvy : ((npSplitRows ((chars.drop 1).take (chars.length / (1 * s) * (1 * s))) 1).map
        (fun r => r.drop c)).getD 0 [] =
        ((chars.drop 1).take (chars.length / (1 * s) * (1 * s))).drop c := by
      rw [getD_map_nil _ (by simp), npSplitRows_getD _ _ _ one_pos]
      simp only [Nat.zero_mul, List.drop_zero, Nat.div_one, List.take_length]
    rw [hvx, hvy, List.length_drop, List.length_drop, hxlen, hylen]
    have hgoal : ∀ m n : ℕ, 1 ≤ n → m ≤ n - 1 → n - 1 - m + 1 = n - m := by
      intro m n h1 hm; omega
    exact hgoal c (s * k) (Nat.mul_pos hs hk) hcle

lemma getD_take (l : List ℕ) (L m : ℕ) (hm : m < L) :
    (l.take L).getD m 0 = l.getD m 0 := by
  rw [List.getD_eq_getElem?_getD, List.getElem?_take, if_pos hm,
    List.getD_eq_getElem?_getD]

lemma getD_drop (l : List ℕ) (a m : ℕ) :
    (l.drop a).getD m 0 = l.getD (a + m) 0 := by
  rw [List.getD_eq_getElem?_getD, List.getElem?_drop, List.getD_eq_getElem?_getD]

/-- C4 (confirmed): for tensors returned by a successful `split_data`,
reassembling row `i` of the inputs (`train` then `val` columns) and of
the targets, the target stream is the input stream shifted one step:
`Y[i][j] = X[i][j+1]` whenever column `j+1` still lies in row `i`'s
contiguous segment. -/
theorem split_data_shift_invariant (chars : List ℕ) (b s : ℕ) (frac : ℚ)
    (tx ty vx vy : List (List ℕ))
    (h : split_data chars b s frac = Except.ok (tx, ty, vx, vy)) (i j : ℕ)
    (hj : j + 1 < (tx.getD i [] ++ vx.getD i []).length) :
    (ty.getD i [] ++ vy.getD i []).getD j 0 =
      (tx.getD i [] ++ vx.getD i []).getD (j + 1) 0 := by
  obtain ⟨h0, hxmod, hymod, hres⟩ := split_data_ok_inv h
  set n := chars.length / (b * s) with hn
  set x := chars.take (n * (b * s)) with hxdef
  set y := (chars.drop 1).take (n * (b * s)) with hydef
  set cIdx := (⌊((n : ℕ) : ℚ) * frac⌋).toNat * s with hcdef
  simp only [Prod.mk.injEq] at hres
  obtain ⟨htx, hty, hvx, hvy⟩ := hres
  have hXrow : tx.getD i [] ++ vx.getD i [] = (npSplitRows x b).getD i [] := by
    rw [htx, hvx, getD_map_nil _ (by simp), getD_map_nil _ (by simp),
      List.take_append_drop]
  have hYrow : ty.getD i [] ++ vy.getD i [] = (npSplitRows y b).getD i [] := by
    rw [hty, hvy, getD_map_nil _ (by simp), getD_map_nil _ (by simp),
      List.take_append_drop]
  rw [hXrow] at hj ⊢
  rw [hYrow]
  by_cases hib : i < b
  · rw [npSplitRows_getD x b i hib] at hj ⊢
    rw [npSplitRows_getD y b i hib]
    set Rx := x.length / b with hRx
    set Ry := y.length / b with hRy
    have hbRx : b * Rx = x.length :=
      Nat.mul_div_cancel' (Nat.dvd_of_mod_eq_zero hxmod)
    have hbRy : b * Ry = y.length :=
      Nat.mul_div_cancel' (Nat.dvd_of_mod_eq_zero hymod)
    rw [List.length_take, List.length_drop] at hj
    have hjRx : j + 1 < Rx := lt_of_lt_of_le hj (min_le_left _ _)
    have hixbound : i * Rx + (j + 1) < x.length := by
      have h1 : i * Rx + (j + 1) < (i + 1) * Rx := by
        rw [Nat.succ_mul]; omega
      have h2 : (i + 1) * Rx ≤ b * Rx := Nat.mul_le_mul_right Rx hib
      omega
    have hxlen : x.length = n * (b * s) := by
      rw [hxdef, List.length_take]
      exact min_eq_left (Nat.div_mul_le_self chars.length (b * s))
    have hylen : y.length = min (n * (b * s)) (chars.length - 1) := by
      rw [hydef, List.length_take, List.length_drop]
    rw [row_getD x Rx _ _ hjRx, getD_take chars _ _ (by omega)]
    rcases Nat.lt_or_ge (n * (b * s)) chars.length with hord | hord
    · -- the corpus has a spare trailing element: y is as long as x
      have hyx : y.length = x.length := by
        rw [hylen, hxlen]
        exact min_eq_left (by omega)
      have hRyx : Ry = Rx := by rw [hRy, hRx, hyx]
      have hjy : j < Ry := by rw [hRyx]; omega
      have hiybound : i * Ry + j < y.length := by
        have h1 : i * Ry + j < (i + 1) * Ry := by rw [Nat.succ_mul]; omega
        have h2 : (i + 1) * Ry ≤ b * Ry := Nat.mul_le_mul_right Ry hib
        omega
      have hybound2 : i * Ry + j < n * (b * s) := by
        rw [hyx, hxlen] at hiybound
        exact hiybound
      rw [row_getD y Ry _ _ hjy]
      rw [hydef, getD_take _ _ _ hybound2, getD_drop, hRyx]
      have hidx : 1 + (i * Rx + j) = i * Rx + (j + 1) := by omega
      rw [hidx]
    · -- exact multiple: y is one shorter, divisibility forces b = 1
      have hxeq : chars.length = n * (b * s) := by
        have hle := Nat.div_mul_le_self chars.length (b * s)
        rw [← hn] at hle
        omega
      by_cases hL : chars.length = 0
      · rw [hxlen] at hbRx
        have : Rx = 0 := by omega
        omega
      · have hylen' : y.length = chars.length - 1 := by
          rw [hylen]
          exact min_eq_right (by omega)
        have hb1 : b = 1 := by
          have hdx : b ∣ chars.length := by
            have : b ∣ x.length := Nat.dvd_of_mod_eq_zero hxmod
            rwa [hxlen, ← hxeq] at this
          have hdy : b ∣ chars.length - 1 := by
            have : b ∣ y.length := Nat.dvd_of_mod_eq_zero hymod
            rwa [hylen'] at this
          have hd1 : b ∣ chars.length - (chars.length - 1) := Nat.dvd_sub' hdx hdy
          rw [show chars.length - (chars.length - 1) = 1 by omega] at hd1
          exact Nat.dvd_one.mp hd1
        have hi0 : i = 0 := by omega
        have hRxval : Rx = chars.length := by
          rw [hRx, hxlen, ← hxeq, hb1, Nat.div_one]
        have hRyval : Ry = chars.length - 1 := by
          rw [hRy, hylen', hb1, Nat.div_one]
        have hjy : j < Ry := by omega
        rw [row_getD y Ry _ _ hjy, hi0]
        rw [hydef, getD_take _ _ _ (by omega), getD_drop]
        have hidx : 1 + (0 * Ry + j) = 0 * Rx + (j + 1) := by omega
        rw [hidx]
  · rw [List.getD_eq_default] at hj
    · exact absurd hj (by simp)
    · rw [npSplitRows_length]; omega

/-- C6 witness: a 2-character corpus with `batch_size = 2`,
`num_steps = 3` (window 6) gives empty tensors, no error. -/
theorem split_data_insufficient_corpus_witness :
    ((1:ℕ) ≤ 2 ∧ (1:ℕ) ≤ 3 ∧ ([0, 1] : List ℕ).length < 2 * 3) ∧
    (∃ tx ty vx vy, split_data [0, 1] 2 3 (9/10) = Except.ok (tx, ty, vx, vy) ∧
      tx.length = 2 ∧ ty.length = 2 ∧ vx.length = 2 ∧ vy.length = 2 ∧
      (∀ r ∈ tx, r = []) ∧ (∀ r ∈ ty, r = []) ∧
      (∀ r ∈ vx, r = []) ∧ (∀ r ∈ vy, r = [])) :=
  ⟨⟨by norm_num, by norm_num, by decide⟩,
   split_data_insufficient_corpus [0, 1] 2 3 (9/10) (by norm_num) (by norm_num)
     (by decide)⟩

/-- C2 witness: the 12-character corpus as an exact multiple, with
`batch_size = 2` (failure) and `batch_size = 1` (truncated target). -/
theorem split_data_exact_multiple_witness :
    ((1:ℕ) ≤ 3 ∧ (1:ℕ) ≤ 2 ∧
      ([0, 1, 2, 0, 1, 2, 0, 1, 2, 0, 1, 2] : List ℕ).length = 2 * 3 * 2 ∧
      (1:ℕ) ≤ 4 ∧
      ([0, 1, 2, 0, 1, 2, 0, 1, 2, 0, 1, 2] : List ℕ).length = 1 * 3 * 4) ∧
    ((2 ≤ 2 →
      ∃ msg, split_data [0, 1, 2, 0, 1, 2, 0, 1, 2, 0, 1, 2] 2 3 (1/2) =
        Except.error msg) ∧
     ((2:ℕ) = 1 → (0:ℚ) ≤ 1/2 → (1:ℚ)/2 < 1 → ∃ tx ty vx vy,
       split_data [0, 1, 2, 0, 1, 2, 0, 1, 2, 0, 1, 2] 1 3 (1/2) =
         Except.ok (tx, ty, vx, vy) ∧
       (vy.getD 0 []).length + 1 = (vx.getD 0 []).length)) ∧
    ((2 ≤ 1 →
      ∃ msg, split_data [0, 1, 2, 0, 1, 2, 0, 1, 2, 0, 1, 2] 1 3 (1/2) =
        Except.error msg) ∧
     ((1:ℕ) = 1 → (0:ℚ) ≤ 1/2 → (1:ℚ)/2 < 1 → ∃ tx ty vx vy,
       split_data [0, 1, 2, 0, 1, 2, 0, 1, 2, 0, 1, 2] 1 3 (1/2) =
         Except.ok (tx, ty, vx, vy) ∧
       (vy.getD 0 []).length + 1 = (vx.getD 0 []).length)) :=
  ⟨⟨by norm_num, by norm_num, by decide, by norm_num, by decide⟩,
   split_data_exact_multiple [0, 1, 2, 0, 1, 2, 0, 1, 2, 0, 1, 2] 2 3 2 (1/2)
     (by norm_num) (by norm_num) (by decide),
   split_data_exact_multiple [0, 1, 2, 0, 1, 2, 0, 1, 2, 0, 1, 2] 1 3 4 (1/2)
     (by norm_num) (by norm_num) (by decide)⟩

/-- C4 witness: a 13-character corpus (one spare trailing element),
`batch_size = 2`, `num_steps = 3`, `split_frac = 1/2`: the concrete
split is computed and the shift invariant checked at `i = 0, j = 0`. -/
theorem split_data_shift_invariant_witness :
    split_data [0, 1, 2, 0, 1, 2, 0, 1, 2, 0, 1, 2, 9] 2 3 (1/2) =
      Except.ok ([[0, 1, 2], [0, 1, 2]], [[1, 2, 0], [1, 2, 0]],
        [[0, 1, 2], [0, 1, 2]], [[1, 2, 0], [1, 2, 9]]) ∧
    0 + 1 < ((([[0, 1, 2], [0, 1, 2]] : List (List ℕ)).getD 0 []) ++
      (([[0, 1, 2], [0, 1, 2]] : List (List ℕ)).getD 0 [])).length ∧
    ((([[1, 2, 0], [1, 2, 0]] : List (List ℕ)).getD 0 []) ++
      (([[1, 2, 0], [1, 2, 9]] : List (List ℕ)).getD 0 [])).getD 0 0 =
    ((([[0, 1, 2], [0, 1, 2]] : List (List ℕ)).getD 0 []) ++
      (([[0, 1, 2], [0, 1, 2]] : List (List ℕ)).getD 0 [])).getD (0 + 1) 0 := by
  have hfl : (⌊((([0, 1, 2, 0, 1, 2, 0, 1, 2, 0, 1, 2, 9] : List ℕ).length / (2 * 3) :
      ℕ) : ℚ) * (1/2)⌋).toNat = 1 := by
    have hq : ((([0, 1, 2, 0, 1, 2, 0, 1, 2, 0, 1, 2, 9] : List ℕ).length / (2 * 3) :
        ℕ) : ℚ) * (1/2) = 1 := by
      norm_num
    rw [hq, Int.floor_one]
    rfl
  have heval := split_data_eq_ok [0, 1, 2, 0, 1, 2, 0, 1, 2, 0, 1, 2, 9] 2 3 (1/2)
    (by norm_num) (by decide) (by decide)
  rw [hfl] at heval
  have hok : split_data [0, 1, 2, 0, 1, 2, 0, 1, 2, 0, 1, 2, 9] 2 3 (1/2) =
      Except.ok ([[0, 1, 2], [0, 1, 2]], [[1, 2, 0], [1, 2, 0]],
        [[0, 1, 2], [0, 1, 2]], [[1, 2, 0], [1, 2, 9]]) :=
    heval.trans (congrArg Except.ok (by decide))
  exact ⟨hok, by decide,
    split_data_shift_invariant [0, 1, 2, 0, 1, 2, 0, 1, 2, 0, 1, 2, 9] 2 3 (1/2)
      _ _ _ _ hok 0 0 (by decide)⟩

/-- Concatenating the successive `S`-wide column windows of a row
rebuilds its first `k * S` entries. -/
lemma chunks_flatten (row : List ℕ) (S : ℕ) :
    ∀ k, ((List.range k).map (fun b => (row.drop (b * S)).take S)).flatten =
      row.take (k * S) := by
  intro k
  induction k with
  | zero => simp
  | succ m ih =>
    rw [List.range_succ, List.map_append, List.flatten_append, ih]
    simp only [List.map_cons, List.map_nil, List.flatten_cons, List.flatten_nil,
      List.append_nil]
    rw [Nat.succ_mul, List.take_add]

/-- C5 (confirmed): over a pair of equal-shaped matrices with `C`
columns, `get_batch` yields exactly `⌊C/S⌋` windows; window `b` is the
column block `[b*S, (b+1)*S)` of both arrays (so the windows are
non-overlapping and in left-to-right order), every row of every window
has width `S`, and per row the concatenated windows equal the row's
first `⌊C/S⌋*S` columns. -/
theorem get_batch_window_partition (X Y : List (List ℕ)) (C S : ℕ) (hS : 1 ≤ S)
    (hXne : X ≠ []) (hX : ∀ r ∈ X, r.length = C) (hY : ∀ r ∈ Y, r.length = C) :
    (get_batch [X, Y] S).length = C / S ∧
    (∀ w ∈ get_batch [X, Y] S, ∃ b, b < C / S ∧
      w = [X.map (fun row => (row.drop (b * S)).take S),
           Y.map (fun row => (row.drop (b * S)).take S)]) ∧
    (∀ w ∈ get_batch [X, Y] S, ∀ m ∈ w, ∀ row ∈ m, row.length = S) ∧
    (∀ i : ℕ, ((get_batch [X, Y] S).map (fun w => (w.getD 0 []).getD i [])).flatten =
      (X.getD i []).take (C / S * S)) ∧
    (∀ i : ℕ, ((get_batch [X, Y] S).map (fun w => (w.getD 1 []).getD i [])).flatten =
      (Y.getD i []).take (C / S * S)) := by
  obtain ⟨r0, X', hX0⟩ := List.exists_cons_of_ne_nil hXne
  have hC : ((([X, Y] : List (List (List ℕ))).headD []).headD []).length = C := by
    rw [hX0]
    simp only [List.headD_cons]
    exact hX r0 (by rw [hX0]; exact List.mem_cons_self _ _)
  have hgb : get_batch [X, Y] S = (List.range (C / S)).map (fun b =>
      [X.map (fun row => (row.drop (b * S)).take S),
       Y.map (fun row => (row.drop (b * S)).take S)]) := by
    rw [get_batch]
    simp only [hC]
    rfl
  have hwidth : ∀ b, b < C / S → ∀ (row : List ℕ), row.length = C →
      ((row.drop (b * S)).take S).length = S := by
    intro b hb row hrow
    rw [List.length_take, List.length_drop, hrow]
    have h1 : (b + 1) * S ≤ C / S * S :=
      Nat.mul_le_mul_right S (by omega)
    have h2 : C / S * S ≤ C := Nat.div_mul_le_self C S
    rw [Nat.succ_mul] at h1
    omega
  refine ⟨by rw [hgb]; simp, ?_, ?_, ?_, ?_⟩
  · intro w hw
    rw [hgb] at hw
    obtain ⟨b, hb, hweq⟩ := List.mem_map.mp hw
    exact ⟨b, List.mem_range.mp hb, hweq.symm⟩
  · intro w hw m hm row hrow
    rw [hgb] at hw
    obtain ⟨b, hb, hweq⟩ := List.mem_map.mp hw
    rw [← hweq] at hm
    rcases List.mem_cons.mp hm with rfl | hm'
    · obtain ⟨row', hrow', hre⟩ := List.mem_map.mp hrow
      rw [← hre]
      exact hwidth b (List.mem_range.mp hb) row' (hX row' hrow')
    · rcases List.mem_cons.mp hm' with rfl | hm''
      · obtain ⟨row', hrow', hre⟩ := List.mem_map.mp hrow
        rw [← hre]
        exact hwidth b (List.mem_range.mp hb) row' (hY row' hrow')
      · exact absurd hm'' (List.not_mem_nil m)
  · intro i
    rw [hgb, List.map_map]
    have hcomp : ∀ b : ℕ,
        ((fun w => (List.getD w 0 [] : List (List ℕ)).getD i []) ∘ (fun b =>
          [X.map (fun row => (row.drop (b * S)).take S),
           Y.map (fun row => (row.drop (b * S)).take S)])) b =
        ((X.getD i []).drop (b * S)).take S := by
      intro b
      simp only [Function.comp_apply, List.getD_cons_zero]
      exact getD_map_nil _ (by simp) X i
    rw [List.map_congr_left (fun b _ => hcomp b), chunks_flatten]
  · intro i
    rw [hgb, List.map_map]
    have hcomp : ∀ b : ℕ,
        ((fun w => (List.getD w 1 [] : List (List ℕ)).getD i []) ∘ (fun b =>
          [X.map (fun row => (row.drop (b * S)).take S),
           Y.map (fun row => (row.drop (b * S)).take S)])) b =
        ((Y.getD i []).drop (b * S)).take S := by
      intro b
      simp only [Function.comp_apply, List.getD_cons_succ, List.getD_cons_zero]
      exact getD_map_nil _ (by simp) Y i
    rw [List.map_congr_left (fun b _ => hcomp b), chunks_flatten]

/-- C5 witness: the concrete 2×6 split pair with `num_steps = 3`
yields 2 windows that tile the 6 columns. -/
theorem get_batch_window_partition_witness :
    ((1:ℕ) ≤ 3 ∧ ([[0, 1, 2, 0, 1, 2], [0, 1, 2, 0, 1, 2]] : List (List ℕ)) ≠ [] ∧
      (∀ r ∈ ([[0, 1, 2, 0, 1, 2], [0, 1, 2, 0, 1, 2]] : List (List ℕ)),
        r.length = 6) ∧
      (∀ r ∈ ([[1, 2, 0, 1, 2, 0], [1, 2, 0, 1, 2, 9]] : List (List ℕ)),
        r.length = 6)) ∧
    ((get_batch [[[0, 1, 2, 0, 1, 2], [0, 1, 2, 0, 1, 2]],
        [[1, 2, 0, 1, 2, 0], [1, 2, 0, 1, 2, 9]]] 3).length = 6 / 3 ∧
     (∀ w ∈ get_batch [[[0, 1, 2, 0, 1, 2], [0, 1, 2, 0, 1, 2]],
        [[1, 2, 0, 1, 2, 0], [1, 2, 0, 1, 2, 9]]] 3, ∃ b, b < 6 / 3 ∧
      w = [([[0, 1, 2, 0, 1, 2], [0, 1, 2, 0, 1, 2]] : List (List ℕ)).map
            (fun row => (row.drop (b * 3)).take 3),
          ([[1, 2, 0, 1, 2, 0], [1, 2, 0, 1, 2, 9]] : List (List ℕ)).map
            (fun row => (row.drop (b * 3)).take 3)]) ∧
     (∀ w ∈ get_batch [[[0, 1, 2, 0, 1, 2], [0, 1, 2, 0, 1, 2]],
        [[1, 2, 0, 1, 2, 0], [1, 2, 0, 1, 2, 9]]] 3,
        ∀ m ∈ w, ∀ row ∈ m, row.length = 3) ∧
     (∀ i : ℕ, ((get_batch [[[0, 1, 2, 0, 1, 2], [0, 1, 2, 0, 1, 2]],
          [[1, 2, 0, 1, 2, 0], [1, 2, 0, 1, 2, 9]]] 3).map
            (fun w => (w.getD 0 []).getD i [])).flatten =
        (([[0, 1, 2, 0, 1, 2], [0, 1, 2, 0, 1, 2]] : List (List ℕ)).getD i
          []).take (6 / 3 * 3)) ∧
     (∀ i : ℕ, ((get_batch [[[0, 1, 2, 0, 1, 2], [0, 1, 2, 0, 1, 2]],
          [[1, 2, 0, 1, 2, 0], [1, 2, 0, 1, 2, 9]]] 3).map
            (fun w => (w.getD 1 []).getD i [])).flatten =
        (([[1, 2, 0, 1, 2, 0], [1, 2, 0, 1, 2, 9]] : List (List ℕ)).getD i
          []).take (6 / 3 * 3))) :=
  ⟨⟨by norm_num, by simp, by decide, by decide⟩,
   get_batch_window_partition [[0, 1, 2, 0, 1, 2], [0, 1, 2, 0, 1, 2]]
     [[1, 2, 0, 1, 2, 0], [1, 2, 0, 1, 2, 9]] 6 3 (by norm_num) (by simp)
     (by decide) (by decide)⟩

end AnnaKaRNNa
